import Mathlib

/-!
Shallow embedding of the discrete event simulation engine in
`simula-compiler/simula-sim/src/lib.rs`: the `SimulationEngine` (event queue,
model registry, metric store), the `parallel` module (`ParallelSimulation`)
and the `statistics` module (`SimulationStatistics`).

Modelling conventions:
* `f64` is modelled by `F64`: either NaN or a finite rational.  The claims
  exercise only finite values and NaN; infinities are not needed.
* `HashMap` is modelled by an association list.  `HashMap::insert` replaces
  the first entry with the given key (or appends), `get` finds the first
  entry.  Per-key contents never depend on the unspecified iteration order,
  and no claim observes that order.
* Rust's `Vec::sort_by` is a stable sort.  For any transitive and total
  comparator every stable sort produces the same list, so it is embedded as
  `List.insertionSort` (which is stable: `List.sublist_insertionSort`).
  The comparator `a.time.partial_cmp(&b.time).unwrap()` panics when one of
  the compared times is NaN; a correct comparison sort on two or more
  elements invokes the comparator on every element at least once, so the
  call panics exactly when the vector being sorted has length at least two
  and contains a NaN time.  A panic is modelled as the error
  `SimError.panicNanCompare`.
* Fallible Rust functions (`Result<_, anyhow::Error>`) return `Except`.
-/

namespace Simula

/-- Model of `f64`: NaN or a finite rational value. -/
inductive F64 where
  | nan : F64
  | num (q : ℚ) : F64
deriving DecidableEq

/-- Rust `f64::is_nan`. -/
def F64.isNan : F64 → Bool
  | .nan => true
  | .num _ => false

/-- Rust `<` on `f64`: any comparison with NaN is false. -/
def F64.lt : F64 → F64 → Bool
  | .num p, .num q => decide (p < q)
  | _, _ => false

/-- Non-strict comparison used to model the sort order produced by
`partial_cmp(..).unwrap()`.  On finite values it is `≤`; the NaN rows are
arbitrary (NaN sorts as a bottom element) and are only ever reached in
states where the real comparator would already have panicked. -/
def F64.le : F64 → F64 → Bool
  | .nan, _ => true
  | .num _, .nan => false
  | .num p, .num q => decide (p ≤ q)

/-- IEEE square root, NaN for NaN and for negative inputs.  On non-negative
finite input the double result is a finite non-NaN value; it is modelled by
the rational square root (exact for perfect squares).  No claim observes
the rounding of a non-NaN square root, only its non-NaN-ness. -/
def F64.sqrt : F64 → F64
  | .nan => .nan
  | .num q => if q < 0 then .nan else .num (Rat.sqrt q)

/-- The `EventType` enum of `simula-sim`. -/
inductive EventType where
  | ModelUpdate : EventType
  | DataArrival : EventType
  | TrainingStep : EventType
  | Evaluation : EventType
  | Custom (s : String) : EventType
deriving DecidableEq

/-- The `Event` struct of `simula-sim`. -/
structure Event where
  time : F64
  event_type : EventType
  model_id : String
deriving DecidableEq

/-- The `AIModel` struct of `simula-ai`.  The simulation core only uses the
`name` field and otherwise treats the model as opaque mutable state; the
remaining fields (parameters, architecture, configs) are collapsed into an
opaque `payload` that the engine never inspects. -/
structure AIModel where
  name : String
  payload : ℕ
deriving DecidableEq

/-- Association-list model of `HashMap::get`: first entry with the key. -/
def lookupKey {β : Type} (m : List (String × β)) (k : String) : Option β :=
  (m.find? (fun p => p.1 == k)).map Prod.snd

/-- Association-list model of `HashMap::insert`: replace the first entry
with the key, or append a new entry. -/
def insertKey {β : Type} : List (String × β) → String → β → List (String × β)
  | [], k, v => [(k, v)]
  | p :: rest, k, v => if p.1 == k then (k, v) :: rest else p :: insertKey rest k v

/-- The `SimulationEngine` struct: clock, pending events, model registry,
metric store. -/
structure SimulationEngine where
  time : F64
  events : List Event
  models : List (String × AIModel)
  metrics : List (String × List F64)
deriving DecidableEq

/-- `SimulationEngine::new()`. -/
def SimulationEngine.new : SimulationEngine :=
  { time := .num 0, events := [], models := [], metrics := [] }

/-- `SimulationEngine::add_model`: `self.models.insert(model.name.clone(), model)`. -/
def SimulationEngine.add_model (st : SimulationEngine) (m : AIModel) : SimulationEngine :=
  { st with models := insertKey st.models m.name m }

/-- Sort order of the event queue: by `time`, via the comparator
`a.time.partial_cmp(&b.time).unwrap()`. -/
def eventLE (a b : Event) : Prop := F64.le a.time b.time = true

instance : DecidableRel eventLE :=
  fun a b => inferInstanceAs (Decidable (F64.le a.time b.time = true))

/-- Failure values.  `panicNanCompare` models the panic of
`partial_cmp(..).unwrap()` on a NaN operand.  `handlerFailure` inhabits the
error type of `anyhow::Error` results (handler or worker failures); the
embedded code never produces it, mirroring the always-`Ok` handler bodies. -/
inductive SimError where
  | panicNanCompare : SimError
  | handlerFailure (which : String) : SimError
deriving DecidableEq

/-- `SimulationEngine::schedule_event`: push the event, then
`self.events.sort_by(|a, b| a.time.partial_cmp(&b.time).unwrap())`.
The sort panics exactly when the queue being sorted has length `≥ 2` and
contains a NaN time (see the header comment); otherwise it is the stable
sort by `time`. -/
def SimulationEngine.schedule_event (st : SimulationEngine) (e : Event) :
    Except SimError SimulationEngine :=
  let evs := st.events ++ [e]
  if 2 ≤ evs.length ∧ evs.any (fun x => x.time.isNan) = true then
    .error .panicNanCompare
  else
    .ok { st with events := List.insertionSort eventLE evs }

/-- `SimulationEngine::update_model`: `Ok(())`. -/
def SimulationEngine.update_model (st : SimulationEngine) (m : AIModel) :
    Except SimError (SimulationEngine × AIModel) := .ok (st, m)

/-- `SimulationEngine::process_data`: `Ok(())`. -/
def SimulationEngine.process_data (st : SimulationEngine) (m : AIModel) :
    Except SimError (SimulationEngine × AIModel) := .ok (st, m)

/-- `SimulationEngine::train_model`: `Ok(())`. -/
def SimulationEngine.train_model (st : SimulationEngine) (m : AIModel) :
    Except SimError (SimulationEngine × AIModel) := .ok (st, m)

/-- `SimulationEngine::evaluate_model`: `Ok(())`. -/
def SimulationEngine.evaluate_model (st : SimulationEngine) (m : AIModel) :
    Except SimError (SimulationEngine × AIModel) := .ok (st, m)

/-- `SimulationEngine::process_event`: look up the target model
(`self.models.get_mut(&event.model_id)`); if absent do nothing; otherwise
dispatch on the event type.  The handler receives the mutably borrowed
model; the write-through of the borrow is modelled by re-inserting the
handler's model under the same key. -/
def SimulationEngine.process_event (st : SimulationEngine) (e : Event) :
    Except SimError SimulationEngine :=
  match lookupKey st.models e.model_id with
  | none => .ok st
  | some m =>
    match e.event_type with
    | .ModelUpdate =>
      (st.update_model m).map fun r =>
        { r.1 with models := insertKey r.1.models e.model_id r.2 }
    | .DataArrival =>
      (st.process_data m).map fun r =>
        { r.1 with models := insertKey r.1.models e.model_id r.2 }
    | .TrainingStep =>
      (st.train_model m).map fun r =>
        { r.1 with models := insertKey r.1.models e.model_id r.2 }
    | .Evaluation =>
      (st.evaluate_model m).map fun r =>
        { r.1 with models := insertKey r.1.models e.model_id r.2 }
    | .Custom _ => .ok st

/-- Loop body of `SimulationEngine::run`, fuelled.  Each iteration of the
source loop removes exactly one pending event (`self.events.remove(0)`),
sets the clock to its time, and processes it; the handlers never enqueue
events, so `st.events.length` iterations always suffice
(`runAux_fuel_irrelevant` below).  The second component of the result is
the trace of dispatched events in dispatch order, used only by
specifications. -/
def SimulationEngine.runAux :
    ℕ → SimulationEngine → F64 → Except SimError (SimulationEngine × List Event)
  | 0, st, _ => .ok (st, [])
  | fuel + 1, st, end_time =>
    if F64.lt st.time end_time = true then
      match st.events with
      | [] => .ok (st, [])
      | e :: rest =>
        match SimulationEngine.process_event { st with time := e.time, events := rest } e with
        | .error err => .error err
        | .ok st2 =>
          match SimulationEngine.runAux fuel st2 end_time with
          | .error err => .error err
          | .ok r => .ok (r.1, e :: r.2)
    else .ok (st, [])

/-- `SimulationEngine::run`: `while self.time < end_time && !self.events.is_empty()
{ let event = self.events.remove(0); self.time = event.time; self.process_event(event)?; }`. -/
def SimulationEngine.run (st : SimulationEngine) (end_time : F64) :
    Except SimError (SimulationEngine × List Event) :=
  SimulationEngine.runAux st.events.length st end_time

/-- An engine obtained by scheduling the given events, in order, on a fresh
engine. -/
def schedule_all (evs : List Event) : Except SimError SimulationEngine :=
  evs.foldlM (fun st e => st.schedule_event e) SimulationEngine.new

/-- Await loop of `ParallelSimulation::run_parallel`:
`for handle in handles { handle.await?? } ; Ok(())`, abstracted over the
results the joined tasks produce.  The `??` operator returns the first
error in await order immediately; later results are not awaited. -/
def joinResults {α : Type} : List (Except SimError α) → Except SimError (List α)
  | [] => .ok []
  | .error e :: _ => .error e
  | .ok a :: rest => (joinResults rest).map (fun l => a :: l)

/-- `ParallelSimulation::run_parallel`: spawn one task per engine, each
running `engine.run(end_time)`; the engines share no state, so each task's
result is its engine's `run` result; then await them in spawn order with
`??`. -/
def run_parallel (engines : List SimulationEngine) (end_time : F64) :
    Except SimError (List SimulationEngine) :=
  (joinResults (engines.map (fun e => e.run end_time))).map (fun l => l.map Prod.fst)

/-- Entry update of `ParallelSimulation::aggregate_results`:
`aggregated.entry(metric.clone()).or_insert_with(Vec::new).extend(values)`. -/
def entryExtend (agg : List (String × List F64)) (k : String) (vs : List F64) :
    List (String × List F64) :=
  match lookupKey agg k with
  | some old => insertKey agg k (old ++ vs)
  | none => agg ++ [(k, vs)]

/-- `ParallelSimulation::aggregate_results`: fold every engine's metric
store into one map. -/
def aggregate_results (engines : List SimulationEngine) : List (String × List F64) :=
  engines.foldl (fun agg e => e.metrics.foldl (fun a p => entryExtend a p.1 p.2) agg) []

/-- All values stored under a key, across duplicate entries (association
lists built by the engine have unique keys, where this coincides with the
single entry's value list). -/
def getValuesAll (ms : List (String × List F64)) (k : String) : List F64 :=
  ((ms.filter (fun p => p.1 == k)).map Prod.snd).flatten

/-- Finite values of a sequence, as rationals. -/
def finiteVals (xs : List F64) : List ℚ :=
  xs.filterMap (fun x => match x with | .nan => none | .num q => some q)

/-- Minimum of a list of rationals (the empty case is never reached under
the guards below). -/
def listMin : List ℚ → ℚ
  | [] => 0
  | q :: qs => qs.foldl min q

/-- Maximum of a list of rationals (the empty case is never reached under
the guards below). -/
def listMax : List ℚ → ℚ
  | [] => 0
  | q :: qs => qs.foldl max q

/-- Modelled from the spec and the statrs documentation (statrs is an
external dependency, not part of this repository): the mean, NaN on empty
input, NaN once a NaN observation is present. -/
def statMean (xs : List F64) : F64 :=
  if xs.isEmpty ∨ xs.any F64.isNan = true then .nan
  else .num ((finiteVals xs).sum / xs.length)

/-- Modelled from the spec and the statrs documentation: the sample
variance, NaN for fewer than two observations, NaN once a NaN observation
is present. -/
def sampleVariance (xs : List F64) : F64 :=
  if xs.length < 2 ∨ xs.any F64.isNan = true then .nan
  else
    let m : ℚ := (finiteVals xs).sum / xs.length
    .num (((finiteVals xs).map (fun q => (q - m) ^ 2)).sum / ((xs.length : ℚ) - 1))

/-- Modelled from the spec and the statrs documentation: the sample
standard deviation, the square root of the sample variance. -/
def statStdDev (xs : List F64) : F64 :=
  F64.sqrt (sampleVariance xs)

/-- Modelled from the spec and the statrs documentation: the minimum, NaN
on empty input. -/
def statMin (xs : List F64) : F64 :=
  if xs.isEmpty ∨ xs.any F64.isNan = true then .nan
  else .num (listMin (finiteVals xs))

/-- Modelled from the spec and the statrs documentation: the maximum, NaN
on empty input. -/
def statMax (xs : List F64) : F64 :=
  if xs.isEmpty ∨ xs.any F64.isNan = true then .nan
  else .num (listMax (finiteVals xs))

/-- Modelled from the spec and the statrs documentation: the median, NaN on
empty input; on a sorted copy, the middle value for odd length and the
average of the two central values for even length (statrs computes the
median as the R-8 quantile at one half, which reduces to exactly this). -/
def statMedian (xs : List F64) : F64 :=
  if xs.isEmpty ∨ xs.any F64.isNan = true then .nan
  else
    let s := List.insertionSort (fun a b : ℚ => a ≤ b) (finiteVals xs)
    let n := s.length
    if n % 2 = 1 then .num (s.getD (n / 2) 0)
    else .num ((s.getD (n / 2 - 1) 0 + s.getD (n / 2) 0) / 2)

instance exceptDecEq {ε α : Type} [DecidableEq ε] [DecidableEq α] : DecidableEq (Except ε α)
  | .error e1, .error e2 =>
    if h : e1 = e2 then .isTrue (by rw [h]) else .isFalse (by intro hh; injection hh; contradiction)
  | .ok a1, .ok a2 =>
    if h : a1 = a2 then .isTrue (by rw [h]) else .isFalse (by intro hh; injection hh; contradiction)
  | .error _, .ok _ => .isFalse (by intro hh; injection hh)
  | .ok _, .error _ => .isFalse (by intro hh; injection hh)

/-- The `MetricSummary` struct of the `statistics` module. -/
structure MetricSummary where
  mean : F64
  std_dev : F64
  min : F64
  max : F64
  median : F64
deriving DecidableEq

/-- The summary computed for one metric's value sequence inside
`SimulationStatistics::calculate_summary`. -/
def summaryOf (values : List F64) : MetricSummary :=
  { mean := statMean values
    std_dev := statStdDev values
    min := statMin values
    max := statMax values
    median := statMedian values }

/-- `SimulationStatistics::calculate_summary`: map every metric to its
`MetricSummary`. -/
def calculate_summary (metrics : List (String × List F64)) :
    List (String × MetricSummary) :=
  metrics.map (fun p => (p.1, summaryOf p.2))

/-! ### Basic lemmas about the registry operations -/

theorem lookupKey_insertKey {β : Type} (m : List (String × β)) (k : String) (v : β)
    (k' : String) :
    lookupKey (insertKey m k v) k' = if k' = k then some v else lookupKey m k' := by
  induction m with
  | nil =>
    by_cases h : k' = k
    · subst h
      simp [lookupKey, insertKey, List.find?]
    · have hb : (k == k') = false := beq_eq_false_iff_ne.mpr (fun hh => h hh.symm)
      simp [lookupKey, insertKey, List.find?, hb, h]
  | cons p rest ih =>
    obtain ⟨p1, p2⟩ := p
    by_cases hpk : p1 = k
    · have hb : (p1 == k) = true := beq_iff_eq.mpr hpk
      by_cases h : k' = k
      · subst h
        simp [lookupKey, insertKey, List.find?, hb]
      · have hb1 : (k == k') = false := beq_eq_false_iff_ne.mpr (fun hh => h hh.symm)
        have hb2 : (p1 == k') = false :=
          beq_eq_false_iff_ne.mpr (fun hh => h (hh.symm.trans hpk))
        simp [lookupKey, insertKey, List.find?, hb, hb1, hb2, h]
    · have hb : (p1 == k) = false := beq_eq_false_iff_ne.mpr hpk
      by_cases hpq : p1 = k'
      · have hb1 : (p1 == k') = true := beq_iff_eq.mpr hpq
        have h : ¬ k' = k := fun hh => hpk (hpq.trans hh)
        simp [lookupKey, insertKey, List.find?, hb, hb1, h]
      · have hb1 : (p1 == k') = false := beq_eq_false_iff_ne.mpr hpq
        have ih' := ih
        simp only [lookupKey, List.find?, insertKey, hb, if_false, hb1] at ih' ⊢
        exact ih'

theorem insertKey_self {β : Type} (m : List (String × β)) (k : String) (v : β)
    (h : lookupKey m k = some v) : insertKey m k v = m := by
  induction m with
  | nil => simp [lookupKey, List.find?] at h
  | cons p rest ih =>
    obtain ⟨p1, p2⟩ := p
    by_cases hpk : p1 = k
    · have hb : (p1 == k) = true := beq_iff_eq.mpr hpk
      have hv : p2 = v := by simpa [lookupKey, List.find?, hb] using h
      simp [insertKey, hb, ← hv, ← hpk]
    · have hb : (p1 == k) = false := beq_eq_false_iff_ne.mpr hpk
      have h' : lookupKey rest k = some v := by
        simpa [lookupKey, List.find?, hb] using h
      simp [insertKey, hb, ih h']

/-! ### The event handlers and `process_event` never fail and never change the engine -/

theorem process_event_ok (st : SimulationEngine) (e : Event) :
    st.process_event e = .ok st := by
  unfold SimulationEngine.process_event
  cases h : lookupKey st.models e.model_id with
  | none => rfl
  | some m =>
    have hw : insertKey st.models e.model_id m = st.models := insertKey_self _ _ _ h
    cases e.event_type <;>
      simp [SimulationEngine.update_model, SimulationEngine.process_data,
        SimulationEngine.train_model, SimulationEngine.evaluate_model, Except.map, hw]

/-! ### Lemmas about the run loop -/

theorem runAux_succ_notlt (f : ℕ) (st : SimulationEngine) (t : F64)
    (hlt : F64.lt st.time t = false) :
    SimulationEngine.runAux (f + 1) st t = .ok (st, []) := by
  unfold SimulationEngine.runAux
  simp [hlt]

theorem runAux_succ_nil (f : ℕ) (st : SimulationEngine) (t : F64)
    (hev : st.events = []) :
    SimulationEngine.runAux (f + 1) st t = .ok (st, []) := by
  unfold SimulationEngine.runAux
  rw [hev]
  split <;> rfl

theorem runAux_succ_cons (f : ℕ) (st : SimulationEngine) (t : F64) (e : Event)
    (rest : List Event) (hlt : F64.lt st.time t = true) (hev : st.events = e :: rest) :
    SimulationEngine.runAux (f + 1) st t =
      match SimulationEngine.runAux f { st with time := e.time, events := rest } t with
      | .error err => .error err
      | .ok r => .ok (r.1, e :: r.2) := by
  conv_lhs => rw [SimulationEngine.runAux]
  rw [hev]
  simp only [hlt, if_true, process_event_ok]

theorem runAux_ok (f : ℕ) (st : SimulationEngine) (t : F64) :
    ∃ r, SimulationEngine.runAux f st t = .ok r := by
  induction f generalizing st with
  | zero => exact ⟨(st, []), rfl⟩
  | succ f ih =>
    cases hlt : F64.lt st.time t with
    | false => exact ⟨(st, []), runAux_succ_notlt f st t hlt⟩
    | true =>
      cases hev : st.events with
      | nil => exact ⟨(st, []), runAux_succ_nil f st t hev⟩
      | cons e rest =>
        obtain ⟨r, hr⟩ := ih { st with time := e.time, events := rest }
        exact ⟨(r.1, e :: r.2), by rw [runAux_succ_cons f st t e rest hlt hev, hr]⟩

theorem runAux_prefix (f : ℕ) (st : SimulationEngine) (t : F64)
    (r : SimulationEngine × List Event) (h : SimulationEngine.runAux f st t = .ok r) :
    r.2 <+: st.events := by
  induction f generalizing st r with
  | zero =>
    cases h
    exact List.nil_prefix
  | succ f ih =>
    cases hlt : F64.lt st.time t with
    | false =>
      rw [runAux_succ_notlt f st t hlt] at h
      cases h
      exact List.nil_prefix
    | true =>
      cases hev : st.events with
      | nil =>
        rw [runAux_succ_nil f st t hev] at h
        cases h
        exact List.nil_prefix
      | cons e rest =>
        rw [runAux_succ_cons f st t e rest hlt hev] at h
        cases hrec : SimulationEngine.runAux f { st with time := e.time, events := rest } t with
        | error err =>
          simp only [hrec] at h
          exact (Except.noConfusion h)
        | ok r' =>
          simp only [hrec] at h
          injection h with h2
          subst h2
          obtain ⟨tail, htail⟩ := ih _ _ hrec
          exact ⟨tail, by simpa using htail⟩

theorem runAux_nonempty_dispatch (f : ℕ) (st : SimulationEngine) (t : F64)
    (r : SimulationEngine × List Event) (h : SimulationEngine.runAux f st t = .ok r)
    (hne : r.2 ≠ []) : F64.lt st.time t = true := by
  cases f with
  | zero => cases h; simp at hne
  | succ f =>
    cases hlt : F64.lt st.time t with
    | true => rfl
    | false =>
      rw [runAux_succ_notlt f st t hlt] at h
      cases h
      simp at hne

theorem runAux_dropLast_lt (f : ℕ) (st : SimulationEngine) (t : F64)
    (r : SimulationEngine × List Event) (h : SimulationEngine.runAux f st t = .ok r) :
    ∀ e ∈ r.2.dropLast, F64.lt e.time t = true := by
  induction f generalizing st r with
  | zero => cases h; simp
  | succ f ih =>
    cases hlt : F64.lt st.time t with
    | false =>
      rw [runAux_succ_notlt f st t hlt] at h
      cases h
      simp
    | true =>
      cases hev : st.events with
      | nil =>
        rw [runAux_succ_nil f st t hev] at h
        cases h
        simp
      | cons e rest =>
        rw [runAux_succ_cons f st t e rest hlt hev] at h
        cases hrec : SimulationEngine.runAux f { st with time := e.time, events := rest } t with
        | error err =>
          simp only [hrec] at h
          exact (Except.noConfusion h)
        | ok r' =>
          simp only [hrec] at h
          injection h with h2
          subst h2
          intro x hx
          cases hd : r'.2 with
          | nil => simp [hd] at hx
          | cons y ys =>
            rw [hd] at hx
            rw [List.dropLast_cons₂] at hx
            rcases List.mem_cons.mp hx with hxe | hx'
            · subst hxe
              have hne : r'.2 ≠ [] := by simp [hd]
              have := runAux_nonempty_dispatch f _ t r' hrec hne
              simpa using this
            · exact ih _ _ hrec x (by rw [hd]; exact hx')

/-! ### Claim theorems -/

/-- C9: for every engine state and every end time, `run` returns success,
and `process_event` (hence each of the four built-in handlers and the
`Custom` branch it wraps) unconditionally succeeds, leaving the engine
unchanged — the handler-failure abort path of the run loop is unreachable. -/
theorem run_and_process_event_always_succeed (st : SimulationEngine) (t : F64) (e : Event) :
    (∃ r, st.run t = .ok r) ∧ st.process_event e = .ok st :=
  ⟨runAux_ok _ st t, process_event_ok st e⟩

/-- C10: dispatching an event of kind `Custom s` — the engine state `st`
being arbitrary, so with or without the target model registered — leaves
the model registry, all model states, the metric store and the pending
queue exactly as they were; the only state change of the dispatch step is
that the clock was set to the event's time before processing. -/
theorem custom_event_dispatch_only_sets_clock (st : SimulationEngine) (t : F64)
    (s mid : String) :
    SimulationEngine.process_event { st with time := t } ⟨t, .Custom s, mid⟩ =
      .ok { st with time := t } :=
  process_event_ok _ _

/-- C1 (counterexample): an engine whose next event lies past the deadline
still dispatches it: from a fresh engine, schedule an event at time `5`
and run to deadline `1` — the event at time `5 > 1` is dispatched (and the
clock ends at `5`). -/
theorem run_dispatches_event_past_deadline :
    SimulationEngine.new.schedule_event ⟨.num 5, .ModelUpdate, "m"⟩ =
      .ok { time := .num 0, events := [⟨.num 5, .ModelUpdate, "m"⟩],
            models := [], metrics := [] } ∧
    SimulationEngine.run
      { time := .num 0, events := [⟨.num 5, .ModelUpdate, "m"⟩], models := [], metrics := [] }
      (.num 1) =
      .ok ({ time := .num 5, events := [], models := [], metrics := [] },
        [⟨.num 5, .ModelUpdate, "m"⟩]) ∧
    F64.lt (.num 1) (.num 5) = true := by
  refine ⟨by decide, by decide, by decide⟩

/-- C1 (amended): `run(end_time)` extracts the queue head whenever the
clock is still below `end_time`, so it can dispatch at most one event with
time beyond the deadline, and only as the last dispatched event: every
dispatched event except the last has `time < end_time`. -/
theorem run_dispatched_except_last_below_deadline (st : SimulationEngine) (t : F64)
    (r : SimulationEngine × List Event) (h : st.run t = .ok r) :
    ∀ e ∈ r.2.dropLast, F64.lt e.time t = true :=
  runAux_dropLast_lt _ st t r h

/-- Witness for `run_dispatched_except_last_below_deadline` at a concrete
two-event engine run to deadline `1`. -/
theorem run_dispatched_except_last_below_deadline_witness :
    (SimulationEngine.run
        { time := .num 0,
          events := [⟨.num 2, .DataArrival, "a"⟩, ⟨.num 20, .ModelUpdate, "b"⟩],
          models := [], metrics := [] } (.num 10) =
      .ok ({ time := .num 20, events := [], models := [], metrics := [] },
        [⟨.num 2, .DataArrival, "a"⟩, ⟨.num 20, .ModelUpdate, "b"⟩])) ∧
    ∀ e ∈ [⟨.num 2, .DataArrival, "a"⟩, (⟨.num 20, .ModelUpdate, "b"⟩ : Event)].dropLast,
      F64.lt e.time (.num 10) = true := by
  constructor
  · decide
  · exact run_dispatched_except_last_below_deadline
      { time := .num 0,
        events := [⟨.num 2, .DataArrival, "a"⟩, ⟨.num 20, .ModelUpdate, "b"⟩],
        models := [], metrics := [] } (.num 10)
      ({ time := .num 20, events := [], models := [], metrics := [] },
        [⟨.num 2, .DataArrival, "a"⟩, ⟨.num 20, .ModelUpdate, "b"⟩]) (by decide)

/-! ### Scheduling without NaN times never panics -/

theorem schedule_event_ok_of_no_nan (st : SimulationEngine) (e : Event)
    (h1 : ∀ x ∈ st.events, x.time.isNan = false) (he : e.time.isNan = false) :
    st.schedule_event e =
      .ok { st with events := List.insertionSort eventLE (st.events ++ [e]) } := by
  have hguard : ¬(2 ≤ (st.events ++ [e]).length ∧
      (st.events ++ [e]).any (fun x => x.time.isNan) = true) := by
    rintro ⟨-, hany⟩
    rw [List.any_eq_true] at hany
    obtain ⟨x, hx, hnan⟩ := hany
    rcases List.mem_append.mp hx with hx1 | hx2
    · rw [h1 x hx1] at hnan
      cases hnan
    · have hxe : x = e := by simpa using hx2
      rw [hxe, he] at hnan
      cases hnan
  unfold SimulationEngine.schedule_event
  rw [if_neg hguard]

/-- C2 (counterexample): scheduling an event with `time = -1.0` on a fresh
engine is not rejected: the call succeeds and the pending event set grows
from empty to the one-element set containing that event. -/
theorem schedule_event_accepts_negative_time :
    SimulationEngine.new.schedule_event ⟨.num (-1), .ModelUpdate, "m"⟩ =
      .ok { time := .num 0, events := [⟨.num (-1), .ModelUpdate, "m"⟩],
            models := [], metrics := [] } ∧
    SimulationEngine.new.events.length = 0 ∧
    [(⟨.num (-1), .ModelUpdate, "m"⟩ : Event)].length = 1 := by
  refine ⟨by decide, rfl, rfl⟩

/-- C2 (amended): `schedule_event` performs no validation of the event
time.  As long as no NaN time is involved (so the sort comparator does not
panic), every event — negative times included — is accepted: the call
returns success and the pending set is the old set plus that event (one
element larger).  A NaN-timed event, in turn, is not rejected either: it
is silently accepted into an empty queue, and makes the sort comparator
panic (not an error return) otherwise. -/
theorem schedule_event_no_validation (st : SimulationEngine) (e : Event)
    (h1 : ∀ x ∈ st.events, x.time.isNan = false) (he : e.time.isNan = false) :
    ∃ st', st.schedule_event e = .ok st' ∧
      st'.events.length = st.events.length + 1 ∧
      List.Perm st'.events (e :: st.events) := by
  refine ⟨_, schedule_event_ok_of_no_nan st e h1 he, ?_, ?_⟩
  · simp [List.length_insertionSort]
  · exact (List.perm_insertionSort _ _).trans (List.perm_append_singleton _ _)

/-- Witness for `schedule_event_no_validation`: a fresh engine accepts an
event with time `-1`. -/
theorem schedule_event_no_validation_witness :
    (∀ x ∈ SimulationEngine.new.events, x.time.isNan = false) ∧
    (⟨.num (-1), .ModelUpdate, "m"⟩ : Event).time.isNan = false ∧
    ∃ st', SimulationEngine.new.schedule_event ⟨.num (-1), .ModelUpdate, "m"⟩ = .ok st' ∧
      st'.events.length = SimulationEngine.new.events.length + 1 ∧
      List.Perm st'.events [(⟨.num (-1), .ModelUpdate, "m"⟩ : Event)] := by
  refine ⟨by decide, by decide, ?_⟩
  exact schedule_event_no_validation SimulationEngine.new
    ⟨.num (-1), .ModelUpdate, "m"⟩ (by decide) (by decide)

/-- C5 (counterexample): `add_model` cannot fail (its return type is not
fallible), and registering a second model under an already-registered name
replaces the first: after adding `{name := "m", payload := 0}` and then
`{name := "m", payload := 1}`, the registry holds the second model. -/
theorem add_model_replaces_existing :
    ((SimulationEngine.new.add_model ⟨"m", 0⟩).add_model ⟨"m", 1⟩).models =
      [("m", ⟨"m", 1⟩)] ∧
    lookupKey ((SimulationEngine.new.add_model ⟨"m", 0⟩).add_model ⟨"m", 1⟩).models "m" =
      some ⟨"m", 1⟩ ∧
    (⟨"m", 1⟩ : AIModel) ≠ ⟨"m", 0⟩ := by
  refine ⟨by decide, by decide, by decide⟩

/-- C5 (amended): `add_model` never reports an error; it unconditionally
inserts the model under its name, replacing any previously registered
model with that name and leaving all other registry entries unchanged. -/
theorem add_model_insert_semantics (st : SimulationEngine) (m : AIModel) (k : String) :
    lookupKey (st.add_model m).models k =
      if k = m.name then some m else lookupKey st.models k :=
  lookupKey_insertKey st.models m.name m k

/-! ### Statistics lemmas -/

theorem lookupKey_map_values {β γ : Type} (f : β → γ) (m : List (String × β)) (k : String) :
    lookupKey (m.map (fun p => (p.1, f p.2))) k = (lookupKey m k).map f := by
  induction m with
  | nil => rfl
  | cons p rest ih =>
    obtain ⟨p1, p2⟩ := p
    by_cases h : p1 = k
    · have hb : (p1 == k) = true := beq_iff_eq.mpr h
      simp [lookupKey, List.find?, hb]
    · have hb : (p1 == k) = false := beq_eq_false_iff_ne.mpr h
      simpa [lookupKey, List.find?, hb] using ih

/-- C4 (counterexample): a metric whose observation sequence is empty gets
no distinct "no data" outcome from `calculate_summary`: it is mapped to an
ordinary `MetricSummary` whose mean, standard deviation, min, max and
median are all NaN. -/
theorem calculate_summary_empty_is_nan_summary :
    calculate_summary [("loss", [])] =
      [("loss", { mean := .nan, std_dev := .nan, min := .nan, max := .nan, median := .nan })] := by
  decide

/-- C4 (amended): `calculate_summary` keeps every metric, mapping its
value sequence to a `MetricSummary`; the summary of an empty sequence is
the numeric placeholder record with NaN in all five fields — there is no
separate "no observations" result. -/
theorem calculate_summary_total (ms : List (String × List F64)) (n : String) :
    lookupKey (calculate_summary ms) n = (lookupKey ms n).map summaryOf ∧
    summaryOf [] = { mean := .nan, std_dev := .nan, min := .nan, max := .nan, median := .nan } :=
  ⟨lookupKey_map_values summaryOf ms n, by decide⟩

/-- C8: the median reported by `calculate_summary` follows the
average-of-two-central-values policy on even length: for `[1, 2, 3, 4]`
the median is `2.5`, and for `[1, 3, 5]` it is `3`. -/
theorem calculate_summary_median_policy :
    (lookupKey (calculate_summary [("m", [.num 1, .num 2, .num 3, .num 4])]) "m").map
        MetricSummary.median = some (.num (5 / 2)) ∧
    (lookupKey (calculate_summary [("m", [.num 1, .num 3, .num 5])]) "m").map
        MetricSummary.median = some (.num 3) := by
  constructor
  · norm_num [calculate_summary, lookupKey, List.find?, summaryOf, statMedian, finiteVals,
      F64.isNan, List.insertionSort, List.orderedInsert]
  · norm_num [calculate_summary, lookupKey, List.find?, summaryOf, statMedian, finiteVals,
      F64.isNan, List.insertionSort, List.orderedInsert]

/-! ### Parallel orchestration -/

theorem joinResults_all_ok {α : Type} (l : List (Except SimError α))
    (h : ∀ x ∈ l, ∃ v, x = .ok v) : ∃ vs, joinResults l = .ok vs := by
  induction l with
  | nil => exact ⟨[], rfl⟩
  | cons x rest ih =>
    obtain ⟨v, hv⟩ := h x (List.mem_cons_self x rest)
    subst hv
    obtain ⟨vs, hvs⟩ := ih (fun y hy => h y (List.mem_cons_of_mem _ hy))
    exact ⟨v :: vs, by simp [joinResults, hvs, Except.map]⟩

/-- C3 (counterexample): the await loop of `run_parallel`
(`for handle in handles { handle.await?? }`) does not combine worker
failures: fed the results of two failed workers, it returns the first
failure alone — the second worker's failure is absent from the result,
and the error value carries no worker identity. -/
theorem join_results_drops_second_failure :
    joinResults ([Except.error (SimError.handlerFailure "worker 1"),
        Except.error (SimError.handlerFailure "worker 2")] :
        List (Except SimError (SimulationEngine × List Event))) =
      Except.error (SimError.handlerFailure "worker 1") ∧
    SimError.handlerFailure "worker 1" ≠ SimError.handlerFailure "worker 2" := by
  refine ⟨by decide, by decide⟩

/-- C3 (amended): `run_parallel` awaits worker results in spawn order and
propagates the first failure immediately via `??`, without awaiting the
remaining workers and reporting only that single failure with no worker
identity; moreover, in this code a worker's `run` never fails, so
`run_parallel` in fact always returns success. -/
theorem run_parallel_fail_fast_semantics :
    (∀ (engines : List SimulationEngine) (t : F64),
      ∃ es, run_parallel engines t = .ok es) ∧
    (∀ (α : Type) (pre : List (Except SimError α)) (err : SimError)
      (post : List (Except SimError α)),
      (∀ x ∈ pre, ∃ v, x = .ok v) →
      joinResults (pre ++ .error err :: post) = .error err) := by
  constructor
  · intro engines t
    have h : ∀ x ∈ engines.map (fun e => e.run t), ∃ v, x = .ok v := by
      intro x hx
      obtain ⟨e, -, he⟩ := List.mem_map.mp hx
      obtain ⟨r, hr⟩ := runAux_ok e.events.length e t
      exact ⟨r, by rw [← he]; exact hr⟩
    obtain ⟨vs, hvs⟩ := joinResults_all_ok _ h
    exact ⟨vs.map Prod.fst, by simp [run_parallel, hvs, Except.map]⟩
  · intro α pre err post h
    induction pre with
    | nil => rfl
    | cons x rest ih =>
      obtain ⟨v, hv⟩ := h x (List.mem_cons_self x rest)
      subst hv
      have := ih (fun y hy => h y (List.mem_cons_of_mem _ hy))
      simp [joinResults, this, Except.map]

/-- Witness for `run_parallel_fail_fast_semantics`: one fresh worker runs
to success, and a concrete result list with an ok result followed by two
failures joins to the first failure only. -/
theorem run_parallel_fail_fast_semantics_witness :
    (∃ es, run_parallel [SimulationEngine.new] (.num 1) = .ok es) ∧
    joinResults ([Except.ok 0] ++ Except.error (SimError.handlerFailure "worker 2") ::
        [Except.error (SimError.handlerFailure "worker 3")] : List (Except SimError ℕ)) =
      Except.error (SimError.handlerFailure "worker 2") := by
  constructor
  · exact run_parallel_fail_fast_semantics.1 [SimulationEngine.new] (.num 1)
  · exact run_parallel_fail_fast_semantics.2 ℕ [Except.ok 0]
      (SimError.handlerFailure "worker 2") [Except.error (SimError.handlerFailure "worker 3")]
      (by intro x hx; simp at hx; subst hx; exact ⟨0, rfl⟩)

/-! ### The event queue order is total and transitive -/

theorem F64.le_total_bool (a b : F64) : F64.le a b = true ∨ F64.le b a = true := by
  cases a <;> cases b <;> simp [F64.le]
  exact le_total _ _

theorem F64.le_trans_bool (a b c : F64) (h1 : F64.le a b = true) (h2 : F64.le b c = true) :
    F64.le a c = true := by
  cases a <;> cases b <;> cases c <;> simp_all [F64.le]
  exact le_trans h1 h2

instance : IsTotal Event eventLE :=
  ⟨fun a b => F64.le_total_bool a.time b.time⟩

instance : IsTrans Event eventLE :=
  ⟨fun a b c h1 h2 => F64.le_trans_bool a.time b.time c.time h1 h2⟩

/-! ### The scheduled queue: sorted, a permutation of the scheduled events,
and stable (any time-sorted subsequence of the scheduling order survives
into the queue, which is the FIFO tie-break) -/

theorem schedule_fold_invariant (evs : List Event) (hn : ∀ e ∈ evs, e.time.isNan = false)
    (acc : List Event) (st : SimulationEngine)
    (h1 : ∀ x ∈ st.events, x.time.isNan = false)
    (h2 : st.events.Pairwise eventLE)
    (h3 : List.Perm st.events acc)
    (h4 : ∀ c, List.Sublist c acc → c.Pairwise eventLE → List.Sublist c st.events) :
    ∃ st2, evs.foldlM (fun s e => s.schedule_event e) st = .ok st2 ∧
      (∀ x ∈ st2.events, x.time.isNan = false) ∧
      st2.events.Pairwise eventLE ∧
      List.Perm st2.events (acc ++ evs) ∧
      (∀ c, List.Sublist c (acc ++ evs) → c.Pairwise eventLE → List.Sublist c st2.events) := by
  induction evs generalizing acc st with
  | nil =>
    refine ⟨st, rfl, h1, h2, by simpa using h3, ?_⟩
    intro c hc hcp
    exact h4 c (by simpa using hc) hcp
  | cons e evs ih =>
    have he : e.time.isNan = false := hn e (List.mem_cons_self e evs)
    have hstep := schedule_event_ok_of_no_nan st e h1 he
    have hfold : (e :: evs).foldlM (fun s e => s.schedule_event e) st =
        evs.foldlM (fun s e => s.schedule_event e)
          { st with events := List.insertionSort eventLE (st.events ++ [e]) } := by
      rw [List.foldlM_cons, hstep]
      rfl
    set st1 : SimulationEngine :=
      { st with events := List.insertionSort eventLE (st.events ++ [e]) } with hst1
    have h1' : ∀ x ∈ st1.events, x.time.isNan = false := by
      intro x hx
      rw [hst1] at hx
      simp only [List.mem_insertionSort, List.mem_append] at hx
      rcases hx with hx1 | hx2
      · exact h1 x hx1
      · have : x = e := by simpa using hx2
        rw [this]
        exact he
    have h2' : st1.events.Pairwise eventLE := List.sorted_insertionSort eventLE _
    have h3' : List.Perm st1.events (acc ++ [e]) := by
      refine (List.perm_insertionSort eventLE _).trans ?_
      exact h3.append_right [e]
    have h4' : ∀ c, List.Sublist c (acc ++ [e]) → c.Pairwise eventLE → List.Sublist c st1.events := by
      intro c hc hcp
      rw [List.sublist_append_iff] at hc
      obtain ⟨u, w, hcuw, hu, hw⟩ := hc
      have hus : List.Sublist u st.events := by
        refine h4 u hu ?_
        have : List.Sublist u c := hcuw ▸ List.sublist_append_left u w
        exact hcp.sublist this
      have hcsub : List.Sublist c (st.events ++ [e]) := by
        rcases List.sublist_singleton.mp hw with hw1 | hw2
        · subst hcuw
          subst hw1
          simpa using hus.trans (List.sublist_append_left st.events [e])
        · subst hcuw
          subst hw2
          exact List.Sublist.append hus (List.Sublist.refl [e])
      exact List.sublist_insertionSort hcp hcsub
    have hn' : ∀ x ∈ evs, x.time.isNan = false :=
      fun x hx => hn x (List.mem_cons_of_mem e hx)
    obtain ⟨st2, hrun, hi1, hi2, hi3, hi4⟩ := ih hn' (acc ++ [e]) st1 h1' h2' h3' h4'
    refine ⟨st2, by rw [hfold]; exact hrun, hi1, hi2, ?_, ?_⟩
    · simpa [List.append_assoc] using hi3
    · intro c hc hcp
      exact hi4 c (by simpa [List.append_assoc] using hc) hcp

/-- C6: events scheduled in arbitrary order (with non-NaN times) end up in
a queue that is a permutation of the scheduled events, sorted by time, and
stable — every time-sorted subsequence of the scheduling order is still a
subsequence of the queue, which is exactly the FIFO tie-break: two
equal-time events keep their scheduling order.  `run` dispatches a prefix
of that queue, so the dispatched sequence is non-decreasing in time with
the same FIFO tie-break and is never reordered. -/
theorem run_dispatches_sorted_fifo (evs : List Event) (t : F64)
    (hn : ∀ e ∈ evs, e.time.isNan = false) :
    ∃ st, schedule_all evs = .ok st ∧
      List.Perm st.events evs ∧
      st.events.Pairwise eventLE ∧
      (∀ c, List.Sublist c evs → c.Pairwise eventLE → List.Sublist c st.events) ∧
      (∀ r, st.run t = .ok r → r.2 <+: st.events ∧ r.2.Pairwise eventLE) := by
  obtain ⟨st, hrun, -, h2, h3, h4⟩ :=
    schedule_fold_invariant evs hn [] SimulationEngine.new
      (by intro x hx; cases hx) List.Pairwise.nil (List.Perm.refl [])
      (fun c hc hcp => hc)
  refine ⟨st, hrun, by simpa using h3, h2, ?_, ?_⟩
  · intro c hc hcp
    exact h4 c (by simpa using hc) hcp
  · intro r hr
    have hpre : r.2 <+: st.events := runAux_prefix _ _ _ _ hr
    exact ⟨hpre, h2.sublist hpre.sublist⟩

/-- Witness for `run_dispatches_sorted_fifo` at three concrete events —
two of them with equal time — scheduled out of order. -/
theorem run_dispatches_sorted_fifo_witness :
    (∀ e ∈ [⟨.num 2, .ModelUpdate, "a"⟩, ⟨.num 1, .DataArrival, "b"⟩,
        (⟨.num 1, .TrainingStep, "c"⟩ : Event)], e.time.isNan = false) ∧
    ∃ st, schedule_all [⟨.num 2, .ModelUpdate, "a"⟩, ⟨.num 1, .DataArrival, "b"⟩,
        ⟨.num 1, .TrainingStep, "c"⟩] = .ok st ∧
      List.Perm st.events [⟨.num 2, .ModelUpdate, "a"⟩, ⟨.num 1, .DataArrival, "b"⟩,
        ⟨.num 1, .TrainingStep, "c"⟩] ∧
      st.events.Pairwise eventLE ∧
      (∀ c, List.Sublist c [⟨.num 2, .ModelUpdate, "a"⟩, ⟨.num 1, .DataArrival, "b"⟩,
        ⟨.num 1, .TrainingStep, "c"⟩] → c.Pairwise eventLE → List.Sublist c st.events) ∧
      (∀ r, st.run (.num 10) = .ok r → r.2 <+: st.events ∧ r.2.Pairwise eventLE) := by
  refine ⟨by decide, ?_⟩
  exact run_dispatches_sorted_fifo
    [⟨.num 2, .ModelUpdate, "a"⟩, ⟨.num 1, .DataArrival, "b"⟩, ⟨.num 1, .TrainingStep, "c"⟩]
    (.num 10) (by decide)

/-! ### Aggregation of worker metric stores -/

theorem getValuesAll_append (a b : List (String × List F64)) (k : String) :
    getValuesAll (a ++ b) k = getValuesAll a k ++ getValuesAll b k := by
  simp [getValuesAll, List.filter_append]

theorem getValuesAll_nil_of_lookup_none (m : List (String × List F64)) (k : String)
    (h : lookupKey m k = none) : getValuesAll m k = [] := by
  simp only [lookupKey, Option.map_eq_none', List.find?_eq_none] at h
  simp only [getValuesAll, List.flatten_eq_nil_iff]
  intro xs hxs
  rw [List.mem_map] at hxs
  obtain ⟨p, hp, hps⟩ := hxs
  rw [List.mem_filter] at hp
  exact absurd hp.2 (h p hp.1)

theorem lookupKey_none_not_mem {β : Type} (m : List (String × β)) (k : String)
    (h : lookupKey m k = none) : k ∉ m.map Prod.fst := by
  simp only [lookupKey, Option.map_eq_none', List.find?_eq_none] at h
  intro hk
  rw [List.mem_map] at hk
  obtain ⟨p, hp, hps⟩ := hk
  exact h p hp (by simp [hps])

theorem insertKey_keys_of_lookup_some {β : Type} (m : List (String × β)) (k : String)
    (v old : β) (h : lookupKey m k = some old) :
    (insertKey m k v).map Prod.fst = m.map Prod.fst := by
  induction m with
  | nil => simp [lookupKey, List.find?] at h
  | cons p rest ih =>
    obtain ⟨p1, p2⟩ := p
    by_cases hpk : p1 = k
    · have hb : (p1 == k) = true := beq_iff_eq.mpr hpk
      simp [insertKey, hb, hpk]
    · have hb : (p1 == k) = false := beq_eq_false_iff_ne.mpr hpk
      have h' : lookupKey rest k = some old := by
        simpa [lookupKey, List.find?, hb] using h
      simp [insertKey, hb, ih h']

theorem getValuesAll_insertKey_of_lookup_some (m : List (String × List F64)) (k : String)
    (v old : List F64) (hnd : (m.map Prod.fst).Nodup) (h : lookupKey m k = some old) :
    (getValuesAll (insertKey m k v) k = v ∧ getValuesAll m k = old) ∧
      ∀ k2, k2 ≠ k → getValuesAll (insertKey m k v) k2 = getValuesAll m k2 := by
  induction m with
  | nil => simp [lookupKey, List.find?] at h
  | cons p rest ih =>
    obtain ⟨p1, p2⟩ := p
    have hnd1 : (rest.map Prod.fst).Nodup := (List.nodup_cons.mp hnd).2
    have hp1 : p1 ∉ rest.map Prod.fst := (List.nodup_cons.mp hnd).1
    by_cases hpk : p1 = k
    · have hb : (p1 == k) = true := beq_iff_eq.mpr hpk
      have hold : p2 = old := by simpa [lookupKey, List.find?, hb] using h
      have hrest : getValuesAll rest k = [] := by
        apply getValuesAll_nil_of_lookup_none
        simp only [lookupKey, Option.map_eq_none', List.find?_eq_none]
        intro x hx
        intro hxk
        apply hp1
        rw [← hpk] at hxk
        have : x.1 = p1 := by simpa using hxk
        rw [← this]
        exact List.mem_map_of_mem Prod.fst hx
      constructor
      · constructor
        · have hkk : (k == k) = true := beq_iff_eq.mpr rfl
          simp [insertKey, hb, getValuesAll, List.filter_cons, hkk, hrest,
            (by simpa [getValuesAll] using hrest : (((rest.filter
              (fun p => p.1 == k)).map Prod.snd).flatten = []))]
        · simp [getValuesAll, List.filter_cons, hb, hold,
            (by simpa [getValuesAll] using hrest : (((rest.filter
              (fun p => p.1 == k)).map Prod.snd).flatten = []))]
      · intro k2 hk2
        have hb2 : (k == k2) = false := beq_eq_false_iff_ne.mpr (fun hh => hk2 hh.symm)
        have hb3 : (p1 == k2) = false := by
          rw [hpk]
          exact hb2
        simp [insertKey, hb, getValuesAll, List.filter_cons, hb2, hb3]
    · have hb : (p1 == k) = false := beq_eq_false_iff_ne.mpr hpk
      have h' : lookupKey rest k = some old := by
        simpa [lookupKey, List.find?, hb] using h
      obtain ⟨⟨ih1, ih2⟩, ih3⟩ := ih hnd1 h'
      constructor
      · constructor
        · simp [insertKey, hb, getValuesAll, List.filter_cons] at ih1 ⊢
          simp [ih1]
        · simp [getValuesAll, List.filter_cons, hb] at ih2 ⊢
          simp [ih2]
      · intro k2 hk2
        by_cases hp2 : p1 = k2
        · have hb2 : (p1 == k2) = true := beq_iff_eq.mpr hp2
          have := ih3 k2 hk2
          simp [insertKey, hb, getValuesAll, List.filter_cons, hb2] at this ⊢
          simp [this]
        · have hb2 : (p1 == k2) = false := beq_eq_false_iff_ne.mpr hp2
          have := ih3 k2 hk2
          simp [insertKey, hb, getValuesAll, List.filter_cons, hb2] at this ⊢
          simp [this]

theorem entryExtend_keys_nodup (agg : List (String × List F64)) (k : String)
    (vs : List F64) (hnd : (agg.map Prod.fst).Nodup) :
    ((entryExtend agg k vs).map Prod.fst).Nodup := by
  unfold entryExtend
  cases hl : lookupKey agg k with
  | some old =>
    rw [insertKey_keys_of_lookup_some agg k (old ++ vs) old hl]
    exact hnd
  | none =>
    rw [List.map_append]
    refine hnd.append (by simp) ?_
    intro a ha hb
    have : a = k := by simpa using hb
    subst this
    exact lookupKey_none_not_mem agg a hl ha

theorem getValuesAll_entryExtend (agg : List (String × List F64)) (k1 : String)
    (vs : List F64) (hnd : (agg.map Prod.fst).Nodup) (k : String) :
    getValuesAll (entryExtend agg k1 vs) k =
      if k = k1 then getValuesAll agg k ++ vs else getValuesAll agg k := by
  unfold entryExtend
  cases hl : lookupKey agg k1 with
  | some old =>
    obtain ⟨⟨h1, h2⟩, h3⟩ := getValuesAll_insertKey_of_lookup_some agg k1 (old ++ vs) old hnd hl
    by_cases hk : k = k1
    · subst hk
      rw [if_pos rfl, h1, h2]
    · rw [if_neg hk, h3 k hk]
  | none =>
    rw [getValuesAll_append]
    by_cases hk : k = k1
    · subst hk
      have hb : (k == k) = true := beq_iff_eq.mpr rfl
      rw [if_pos rfl]
      simp [getValuesAll, List.filter_cons, hb]
    · have hb : (k1 == k) = false := beq_eq_false_iff_ne.mpr (fun hh => hk hh.symm)
      rw [if_neg hk]
      simp [getValuesAll, List.filter_cons, hb]

theorem metrics_fold_getValues (entries : List (String × List F64))
    (agg : List (String × List F64)) (hnd : (agg.map Prod.fst).Nodup) :
    (((entries.foldl (fun a p => entryExtend a p.1 p.2) agg).map Prod.fst).Nodup) ∧
    ∀ k, getValuesAll (entries.foldl (fun a p => entryExtend a p.1 p.2) agg) k =
      getValuesAll agg k ++ getValuesAll entries k := by
  induction entries generalizing agg with
  | nil => exact ⟨hnd, fun k => by simp [getValuesAll]⟩
  | cons p rest ih =>
    obtain ⟨p1, p2⟩ := p
    have hnd1 : ((entryExtend agg p1 p2).map Prod.fst).Nodup :=
      entryExtend_keys_nodup agg p1 p2 hnd
    obtain ⟨ihnd, ihv⟩ := ih (entryExtend agg p1 p2) hnd1
    refine ⟨by simpa using ihnd, ?_⟩
    intro k
    have hstep := getValuesAll_entryExtend agg p1 p2 hnd k
    have : (rest.foldl (fun a p => entryExtend a p.1 p.2) (entryExtend agg p1 p2)) =
        ((p1, p2) :: rest).foldl (fun a p => entryExtend a p.1 p.2) agg := by
      simp [List.foldl_cons]
    rw [← this, ihv k, hstep]
    by_cases hk : k = p1
    · have hb : (p1 == k) = true := beq_iff_eq.mpr hk.symm
      simp [getValuesAll, List.filter_cons, hb, hk, List.append_assoc]
    · have hb : (p1 == k) = false := beq_eq_false_iff_ne.mpr (fun hh => hk hh.symm)
      simp [getValuesAll, List.filter_cons, hb, hk]

theorem engines_fold_getValues (engines : List SimulationEngine)
    (agg : List (String × List F64)) (hnd : (agg.map Prod.fst).Nodup) :
    (((engines.foldl (fun a e => e.metrics.foldl (fun a2 p => entryExtend a2 p.1 p.2) a)
        agg).map Prod.fst).Nodup) ∧
    ∀ k, getValuesAll (engines.foldl
        (fun a e => e.metrics.foldl (fun a2 p => entryExtend a2 p.1 p.2) a) agg) k =
      getValuesAll agg k ++ (engines.map (fun e => getValuesAll e.metrics k)).flatten := by
  induction engines generalizing agg with
  | nil => exact ⟨hnd, fun k => by simp⟩
  | cons e engines ih =>
    obtain ⟨hnd1, hv1⟩ := metrics_fold_getValues e.metrics agg hnd
    obtain ⟨ihnd, ihv⟩ := ih _ hnd1
    refine ⟨by simpa using ihnd, ?_⟩
    intro k
    simp only [List.foldl_cons]
    rw [ihv k, hv1 k]
    simp [List.append_assoc]

theorem length_flatten_map (engines : List SimulationEngine)
    (f : SimulationEngine → List F64) :
    ((engines.map f).flatten).length = (engines.map (fun e => (f e).length)).sum := by
  induction engines with
  | nil => simp
  | cons e es ih => simp [ih]

theorem multiset_coe_flatten_map (engines : List SimulationEngine)
    (f : SimulationEngine → List F64) :
    (((engines.map f).flatten : List F64) : Multiset F64) =
      (engines.map (fun e => ((f e : List F64) : Multiset F64))).sum := by
  induction engines with
  | nil => simp
  | cons e es ih => simp [List.flatten_cons, ← Multiset.coe_add, ih]

/-- C7: for every collection of worker engines and every metric name,
`aggregate_results` maps that name to the concatenation, in worker order,
of the per-worker value sequences: the length is the sum of the per-worker
lengths and the multiset of values is the multiset union of the per-worker
multisets — no value lost, none duplicated. -/
theorem aggregate_results_complete (engines : List SimulationEngine) (k : String) :
    getValuesAll (aggregate_results engines) k =
      (engines.map (fun e => getValuesAll e.metrics k)).flatten ∧
    (getValuesAll (aggregate_results engines) k).length =
      (engines.map (fun e => (getValuesAll e.metrics k).length)).sum ∧
    ((getValuesAll (aggregate_results engines) k : List F64) : Multiset F64) =
      (engines.map (fun e => ((getValuesAll e.metrics k : List F64) : Multiset F64))).sum := by
  obtain ⟨-, hv⟩ := engines_fold_getValues engines [] (by simp)
  have hmain : getValuesAll (aggregate_results engines) k =
      (engines.map (fun e => getValuesAll e.metrics k)).flatten := by
    have := hv k
    simpa [aggregate_results, getValuesAll] using this
  refine ⟨hmain, ?_, ?_⟩
  · rw [hmain, length_flatten_map]
  · rw [hmain, multiset_coe_flatten_map]

end Simula
